import Mathlib

/-!
Verification of the stremio-shyt BitTorrent streaming core.

This development is a shallow embedding, in Lean, of the piece lifecycle,
the piece-request scheduler, range reads, tracker peer-list decoding and
the HTTP streaming surface of the repository.  Each definition is a direct
translation of the Rust function it is named after:

* `crates/domain/src/entities/piece.rs`       — `Piece`, `mark_downloaded`, `mark_verified`
* `crates/domain/src/entities/torrent.rs`     — `Torrent` (the fields the piece manager uses)
* `crates/domain/src/entities/stream.rs`      — `StreamRange`, `StreamRange.length`
* `crates/domain/src/entities/peer.rs`        — `Peer`, `Peer.new`
* `crates/domain/src/services/piece_manager.rs`
      — `PiecePriority`, `PieceRequest`, `request_piece`, `is_piece_available`,
        `read_piece_data`, `read_range`, `get_next_piece_request`, `mark_piece_completed`
* `crates/domain/src/services/download_service.rs`
      — `complete_piece`, `write_piece_data`
* `crates/domain/src/services/streaming_buffer.rs`
      — `calculate_pieces_for_range`, the background-buffering loop, `cleanup_inactive_sessions`
* `crates/domain/src/services/streaming_service.rs`
      — session map, `stream_content` (range setup), `get_active_sessions`
* `crates/domain/src/services/tracker_service.rs` — compact peer decoding
* `crates/api-server/src/main.rs`            — `parse_range_header`

Modelling conventions.  Machine integers (`u64`, `usize`, `i64`, `u16`) are
modelled as `Nat`/`Int`; where the Rust code can underflow a `u64`
subtraction (a panic in debug builds) the embedding makes the underflow
explicit (an `Option` result, `none` = panic) instead of silently
truncating.  The SHA-1 digest is an opaque parameter `sha1` of the
functions that call it: the Rust code treats it as a pure function and no
claim depends on its internals.  The piece repository stores the expected
hash hex-encoded and decodes it before comparison; the embedding keeps the
byte form on both sides (hex encoding is a bijective representation
detail).  The `PieceManager` keys its repository, queue and backing file
by `torrent_id`; entries of distinct torrents are disjoint, so the state
below is the per-torrent view (the torrent all quantified statements speak
about), with the torrent's repository row always present.  Repository I/O
errors (SQL failures) are not modelled: every repository call either finds
its row or reports absence, as in the happy-path contract of the traits.
-/

namespace StremioShyt

/-- A byte, the element type of piece data, backing files and wire strings. -/
abbrev Byte := Fin 256

/-! ## Entities -/

/-- Piece record, `entities/piece.rs`.  The Rust struct also carries
`id`, `torrent_id` and `piece_index`; the repository key (position in the
piece table) plays that role here.  `hash` is the expected SHA-1 (stored
hex-encoded in Rust, kept as bytes here). -/
structure Piece where
  hash : List Byte
  downloaded : Bool
  verified : Bool
deriving DecidableEq, Repr

/-- `Piece::new`: a fresh piece has both flags false. -/
def Piece.new (hash : List Byte) : Piece :=
  { hash := hash, downloaded := false, verified := false }

/-- `Piece::mark_downloaded`. -/
def Piece.mark_downloaded (p : Piece) : Piece :=
  { p with downloaded := true }

/-- `Piece::mark_verified`: sets the verified flag; a failed verification
also clears the downloaded flag. -/
def Piece.mark_verified (p : Piece) (verified : Bool) : Piece :=
  if verified then { p with verified := verified }
  else { p with verified := verified, downloaded := false }

/-- Torrent row, `entities/torrent.rs`, restricted to the fields the piece
manager and streaming layer read: `id` (assumed persisted, i.e. `Some`),
`piece_length : i32`, `piece_count : i32`, `total_size : i64`. -/
structure Torrent where
  id : Int
  piece_length : Nat
  piece_count : Nat
  total_size : Nat
deriving DecidableEq, Repr

/-- `StreamRange`, `entities/stream.rs`. -/
structure StreamRange where
  start : Nat
  ending : Option Nat
  total_size : Nat
deriving DecidableEq, Repr

/-- `StreamRange::length`: `end.unwrap_or(total_size.saturating_sub(1)) - start + 1`.
The inner subtraction is on `u64`; it underflows when the resolved end is
below `start` (no validated range produced by the server does that). -/
def StreamRange.length (r : StreamRange) : Nat :=
  (r.ending.getD (r.total_size - 1)) - r.start + 1

/-- Peer row, `entities/peer.rs`, restricted to the fields `Peer::new`
receives; the remaining fields (`id`, `peer_id`, `last_seen`, `status`)
are fixed by `Peer::new` (`None`, `None`, now, `Disconnected`). -/
structure Peer where
  torrent_id : Int
  ip : String
  port : Nat
deriving DecidableEq, Repr

/-- `Peer::new`. -/
def Peer.new (torrent_id : Int) (ip : String) (port : Nat) : Peer :=
  { torrent_id := torrent_id, ip := ip, port := port }

/-- `DomainError`, `errors.rs`.  Message strings are built exactly as the
`format!` calls build them (OS error suffixes of I/O errors elided). -/
inductive DomainError where
  | validationError (m : String)
  | torrentNotFound (id : Int)
  | invalidTorrent (m : String)
  | pieceVerificationFailed (i : Int)
  | trackerError (m : String)
  | ioError (m : String)
  | networkError (m : String)
  | repositoryError (m : String)
  | notFound (m : String)
  | parseError (m : String)
deriving DecidableEq, Repr

/-! ## Piece manager state and operations (`services/piece_manager.rs`) -/

/-- Request priorities, `PiecePriority` (derived `Ord` on the discriminant). -/
inductive PiecePriority where
  | low
  | normal
  | high
  | urgent
deriving DecidableEq, Repr

/-- The discriminant used by the derived ordering (`Low = 0 .. Urgent = 3`). -/
def PiecePriority.toNat : PiecePriority → Nat
  | .low => 0
  | .normal => 1
  | .high => 2
  | .urgent => 3

/-- `PieceRequest` (`piece_manager.rs`). -/
structure PieceRequest where
  piece_index : Nat
  priority : PiecePriority
  requester : String
deriving DecidableEq, Repr

/-- Per-torrent `PieceManager` view: the torrent's repository row, its
piece table (indexed by `piece_index`), its pending-request deque and the
contents of its backing file on disk. -/
structure PMState where
  torrent : Torrent
  pieces : List Piece
  queue : List PieceRequest
  file : List Byte
deriving DecidableEq, Repr

/-- The insertion of `request_piece`: the new request is placed at the
first position whose existing request has strictly lower priority
(`position(|r| r.priority < priority)`), or at the back.  Generic in the
entry type so that the ghost-timestamped queue of the ordering proof uses
the same insertion. -/
def insert_req {α : Type} (prio : α → PiecePriority) (r : α) : List α → List α
  | [] => [r]
  | x :: xs =>
    if (prio x).toNat < (prio r).toNat then r :: x :: xs
    else x :: insert_req prio r xs

/-- `PieceManager::request_piece`: builds the request and inserts it in
priority order.  No verified-flag check and no deduplication is performed. -/
def request_piece (s : PMState) (piece_index : Nat) (priority : PiecePriority)
    (requester : String) : PMState :=
  let request : PieceRequest :=
    { piece_index := piece_index, priority := priority, requester := requester }
  { s with queue := insert_req PieceRequest.priority request s.queue }

/-- `PieceManager::is_piece_available`: the piece row exists and has both
flags set. -/
def is_piece_available (s : PMState) (piece_index : Nat) : Bool :=
  match s.pieces.get? piece_index with
  | some piece => piece.downloaded && piece.verified
  | none => false

/-- `PieceManager::get_next_piece_request`: pops the front of the torrent's
deque. -/
def get_next_piece_request (s : PMState) : Option PieceRequest × PMState :=
  match s.queue with
  | [] => (none, s)
  | r :: rest => (some r, { s with queue := rest })

/-- `PieceManager::read_piece_data`: refuses unavailable pieces, then reads
`actual_piece_size` bytes at `piece_index * piece_length` from the backing
file (`seek` + `read_exact`; a short file is an `IoError`, whose OS error
text is elided).  The last piece's size is `total_size - piece_offset`
capped at `piece_length`. -/
def read_piece_data (s : PMState) (piece_index : Nat) :
    Except DomainError (List Byte) :=
  if is_piece_available s piece_index = false then
    .error (.notFound ("Piece " ++ toString piece_index ++ " not available for torrent "
      ++ toString s.torrent.id))
  else
    let piece_size := s.torrent.piece_length
    let piece_offset := piece_index * piece_size
    let actual_piece_size :=
      if piece_index = s.torrent.piece_count - 1 then
        min (s.torrent.total_size - piece_offset) piece_size
      else piece_size
    if piece_offset + actual_piece_size ≤ s.file.length then
      .ok ((s.file.drop piece_offset).take actual_piece_size)
    else .error (.ioError "Failed to read piece data")

/-- The loop body of `PieceManager::read_range` over the piece indices
`start_piece..=end_piece`, carrying `current_offset`, `remaining_length`
and the accumulated `result`.  An unavailable piece first submits an
`Urgent` request by requester `"streaming"` and then returns the
not-ready error; `remaining_length` uses `saturating_sub` as the source
does. -/
def read_range_loop (s : PMState) :
    List Nat → Nat → Nat → List Byte → Except DomainError (List Byte) × PMState
  | [], _, _, acc => (.ok acc, s)
  | piece_index :: rest, current_offset, remaining_length, acc =>
    if is_piece_available s piece_index = false then
      (.error (.notFound ("Piece " ++ toString piece_index ++ " not ready for streaming")),
       request_piece s piece_index .urgent "streaming")
    else
      match read_piece_data s piece_index with
      | .error e => (.error e, s)
      | .ok piece_data =>
        let piece_start_offset := piece_index * s.torrent.piece_length
        let piece_end_offset := piece_start_offset + piece_data.length - 1
        let read_start :=
          if piece_start_offset < current_offset then current_offset - piece_start_offset
          else 0
        let read_end :=
          if current_offset + remaining_length - 1 < piece_end_offset then
            (current_offset + remaining_length - 1) - piece_start_offset + 1
          else piece_data.length
        if read_start < piece_data.length ∧ read_start < read_end then
          let chunk := (piece_data.drop read_start).take (read_end - read_start)
          let acc' := acc ++ chunk
          let current' := current_offset + chunk.length
          let remaining' := remaining_length - chunk.length
          if remaining' = 0 then (.ok acc', s)
          else read_range_loop s rest current' remaining' acc'
        else
          if remaining_length = 0 then (.ok acc, s)
          else read_range_loop s rest current_offset remaining_length acc

/-- `PieceManager::read_range`.  `end_offset = start_offset + length - 1`
is computed on `u64`: when `start_offset + length = 0` the subtraction
underflows, a panic in debug builds, modelled as `none`. -/
def read_range (s : PMState) (start_offset length : Nat) :
    Option (Except DomainError (List Byte) × PMState) :=
  let piece_size := s.torrent.piece_length
  if start_offset + length = 0 then none
  else
    let end_offset := start_offset + length - 1
    let start_piece := start_offset / piece_size
    let end_piece := end_offset / piece_size
    some (read_range_loop s (List.range' start_piece (end_piece + 1 - start_piece))
      start_offset length [])

/-- `PieceManager::mark_piece_completed`: looks the piece up, compares the
SHA-1 of `data` with the stored expected hash, and on a match sets the
`downloaded` and `verified` flags.  Note that it does not touch the
backing file.  `sha1` is the opaque digest function. -/
def mark_piece_completed (sha1 : List Byte → List Byte) (s : PMState)
    (piece_index : Nat) (data : List Byte) : Except DomainError PMState :=
  match s.pieces.get? piece_index with
  | none => .error (.notFound ("Piece " ++ toString piece_index ++ " not found"))
  | some piece =>
    if sha1 data ≠ piece.hash then
      .error (.validationError "Piece hash verification failed")
    else
      let updated_piece : Piece := { piece with downloaded := true, verified := true }
      .ok { s with pieces := s.pieces.set piece_index updated_piece }

/-! ## Download service (`services/download_service.rs`) -/

/-- The file mutation of `DownloadService::write_piece_data`: open the
torrent's backing file, seek to `piece_index * piece_length` and
`write_all` the piece bytes (bytes past the current end extend the file;
a seek past the end leaves a zero gap). -/
def write_at (file : List Byte) (offset : Nat) (data : List Byte) : List Byte :=
  if offset ≤ file.length then
    file.take offset ++ data ++ file.drop (offset + data.length)
  else
    file ++ List.replicate (offset - file.length) (0 : Byte) ++ data

/-- `DownloadService::write_piece_data` on the per-torrent state (the
torrent's `file_path` is set, so the file branch is taken). -/
def write_piece_data (s : PMState) (piece_index : Nat) (data : List Byte) : PMState :=
  { s with file := write_at s.file (piece_index * s.torrent.piece_length) data }

/-- `DownloadService::complete_piece`: verify the SHA-1 of `data` against
the stored hash; on a match mark the piece downloaded and verified, write
the bytes at the piece offset and persist the flags; on a mismatch revert
the flags via `mark_verified(false)`, persist, and fail with
`PieceVerificationFailed`.  (The Rust compares hex renderings of the
digests; hex encoding is injective, so the byte comparison is the same
test.) -/
def complete_piece (sha1 : List Byte → List Byte) (s : PMState)
    (piece_index : Nat) (data : List Byte) : PMState × Except DomainError Bool :=
  match s.pieces.get? piece_index with
  | none => (s, .error (.validationError ("Piece " ++ toString piece_index ++ " not found")))
  | some piece =>
    let verified := sha1 data = piece.hash
    if verified then
      let piece' := (piece.mark_downloaded).mark_verified true
      let s' := write_piece_data { s with pieces := s.pieces.set piece_index piece' }
        piece_index data
      (s', .ok true)
    else
      let piece' := piece.mark_verified false
      ({ s with pieces := s.pieces.set piece_index piece' },
       .error (.pieceVerificationFailed piece_index))

/-! ## Streaming buffer (`services/streaming_buffer.rs`) -/

/-- `StreamingBuffer::calculate_pieces_for_range`: the piece indices of
`[start_offset, start_offset + length)`.  As in `read_range`, the
end-offset `u64` subtraction underflows (debug panic, `none`) when
`start_offset + length = 0`. -/
def calculate_pieces_for_range (t : Torrent) (start_offset length : Nat) :
    Option (List Nat) :=
  let piece_size := t.piece_length
  if start_offset + length = 0 then none
  else
    let start_piece := start_offset / piece_size
    let end_piece := (start_offset + length - 1) / piece_size
    some (List.range' start_piece (end_piece + 1 - start_piece))

/-! ## Tracker response parsing (`services/tracker_service.rs`) -/

/-- The dotted-quad rendering `format!("{}.{}.{}.{}", ...)` of an IPv4
address. -/
def dotted_quad (b0 b1 b2 b3 : Byte) : String :=
  toString b0.val ++ "." ++ toString b1.val ++ "." ++ toString b2.val ++ "." ++ toString b3.val

/-- One compact peer record: 4 IPv4 bytes and a big-endian port
`(chunk[4] as u16) << 8 | chunk[5] as u16`, i.e. `256 * b4 + b5` (the low
byte is below 256, so the shift-or is exactly this sum). -/
def peer_of_chunk (torrent_id : Int) (b0 b1 b2 b3 b4 b5 : Byte) : Peer :=
  Peer.new torrent_id (dotted_quad b0 b1 b2 b3) (256 * b4.val + b5.val)

/-- The `chunks(6)` decode loop over a compact peer byte string.  The
final partial chunk case is unreachable behind the length guard (the Rust
would index out of bounds there). -/
def decode_compact_peers (torrent_id : Int) : List Byte → List Peer
  | b0 :: b1 :: b2 :: b3 :: b4 :: b5 :: rest =>
    peer_of_chunk torrent_id b0 b1 b2 b3 b4 b5 :: decode_compact_peers torrent_id rest
  | _ => []

/-- The compact-peers branch of `TrackerService::parse_tracker_response`
(`BencodedValue::String` case): reject byte strings whose length is not a
multiple of 6, otherwise decode 6 bytes per peer. -/
def parse_compact_peers (torrent_id : Int) (compact_peers : List Byte) :
    Except DomainError (List Peer) :=
  if compact_peers.length % 6 ≠ 0 then
    .error (.trackerError "Invalid compact peer format")
  else
    .ok (decode_compact_peers torrent_id compact_peers)

/-! ## HTTP range header (`crates/api-server/src/main.rs`) -/

/-- `str::strip_prefix`. -/
def strip_prefix (p cs : List Char) : Option (List Char) :=
  if p.isPrefixOf cs then some (cs.drop p.length) else none

/-- `str::split_once`: the pieces before and after the first occurrence of
the separator, `none` when the separator does not occur. -/
def split_once (sep : Char) : List Char → Option (List Char × List Char)
  | [] => none
  | c :: cs =>
    if c = sep then some ([], cs)
    else
      match split_once sep cs with
      | none => none
      | some (pre, post) => some (c :: pre, post)

/-- `str::parse::<u64>` on a decimal numeral: rejects the empty string and
any non-digit character.  (A leading `+` and the `u64` overflow bound are
not modelled; the headers considered here are canonical decimals.) -/
def parse_u64 (cs : List Char) : Option Nat :=
  if cs.isEmpty then none
  else if cs.all Char.isDigit then
    some (cs.foldl (fun a c => 10 * a + (c.toNat - 48)) 0)
  else none

/-- `parse_range_header`: strips `"bytes="`, splits at the first `-`,
parses the start (a parse failure aborts with `None` via `?`), and treats
an empty — or unparsable — end part as an open end. -/
def parse_range_header (range_str : List Char) (total_size : Nat) : Option StreamRange :=
  match strip_prefix "bytes=".toList range_str with
  | none => none
  | some bytes_range =>
    match split_once '-' bytes_range with
    | none => none
    | some (start_str, end_str) =>
      match parse_u64 start_str with
      | none => none
      | some start =>
        let ending := if end_str.isEmpty then none else parse_u64 end_str
        some { start := start, ending := ending, total_size := total_size }

/-- The canonical `bytes=start-` header (the `u64` `Display` rendering of
`start` followed by the open-ended dash). -/
def decimal_chars (n : Nat) : List Char :=
  if n = 0 then ['0']
  else (Nat.digits 10 n).reverse.map (fun d => Char.ofNat (48 + d))

/-- The header string `bytes=start-`. -/
def range_header_open (start : Nat) : List Char :=
  "bytes=".toList ++ decimal_chars start ++ ['-']

/-- The range setup performed by `StreamingServiceImpl::stream_content`
(lines 197–226): default range when none is given, rejection of a start at
or past the file size, then the absolute torrent offset
`file_info.offset + range.start` and the content length `range.length()`.
The actual byte fetch these feed into is `get_buffered_data` /
`read_range`, modelled separately. -/
def stream_content_range_setup (file_size file_offset : Nat)
    (range : Option StreamRange) : Except DomainError (Nat × Nat) :=
  let stream_range := range.getD
    { start := 0, ending := some (1024 * 1024 - 1), total_size := file_size }
  if file_size ≤ stream_range.start then
    .error (.validationError "Range start beyond file size")
  else
    .ok (file_offset + stream_range.start, stream_range.length)

/-! ## Stream sessions (`services/streaming_service.rs`, `streaming_buffer.rs`)

The session lifecycle claims concern which operations touch the
`StreamingServiceImpl.sessions` map (read by `get_active_sessions`, i.e.
`GET /api/streams`) and the `StreamingBuffer.buffers` map (read by the
per-session background-buffering task).  Time is a second-granularity
clock; `Instant::elapsed`/`SystemTime` comparisons become subtractions on
it.  The piece requests the background task submits go to the piece
manager modelled above and do not affect either map. -/

/-- The per-session fields the lifecycle reads: `StreamSession.last_accessed`
(service map) and `SessionBuffer.last_access` (buffer map). -/
structure SessionEntry where
  torrent_id : Int
  last_accessed : Nat
deriving DecidableEq, Repr

/-- Combined state of the streaming service's session map, the streaming
buffer's buffer map, and the clock. -/
structure StreamingState where
  sessions : List (String × SessionEntry)
  buffers : List (String × Nat)
  clock : Nat
deriving DecidableEq, Repr

/-- `HashMap::insert`: replaces any previous binding of the key. -/
def map_insert {β : Type} (k : String) (v : β) (m : List (String × β)) :
    List (String × β) :=
  (k, v) :: m.filter (fun e => e.1 ≠ k)

/-- `HashMap::get`. -/
def map_get {β : Type} (k : String) (m : List (String × β)) : Option β :=
  (m.find? (fun e => e.1 = k)).map Prod.snd

/-- The operations that touch the two maps. -/
inductive StreamOp where
  /-- `create_stream_session` + `initialize_session_buffer`: inserts the
  session (with `last_accessed = now`) into the service map and its buffer
  (with `last_access = now`) into the buffer map, and spawns the
  background-buffering task. -/
  | create_session (sid : String) (tid : Int)
  /-- `stream_content` / `get_buffered_data`: refresh `last_accessed` of
  the session and `last_access` of its buffer. -/
  | stream_access (sid : String)
  /-- `close_stream_session`: removes the session from the service map
  (the buffer map is not touched). -/
  | close_session (sid : String)
  /-- Wall-clock time passing. -/
  | tick (dt : Nat)
  /-- One iteration of the `start_background_buffering` loop: if the
  session's buffer is gone, or idle for more than 300 seconds, the task
  breaks out of its loop and removes the buffer; otherwise it submits
  prefetch requests to the piece manager (not modelled here) and sleeps. -/
  | prefetch_iter (sid : String)
  /-- `StreamingBuffer::cleanup_inactive_sessions`: drops buffers idle for
  at least 600 seconds.  No code in the repository ever invokes it, and it
  only touches the buffer map; it is included to show that even running it
  leaves the session map intact. -/
  | buffer_cleanup
deriving DecidableEq, Repr

/-- The semantics of one operation. -/
def stream_step (s : StreamingState) : StreamOp → StreamingState
  | .create_session sid tid =>
    { s with
      sessions := map_insert sid { torrent_id := tid, last_accessed := s.clock } s.sessions,
      buffers := map_insert sid s.clock s.buffers }
  | .stream_access sid =>
    let sessions' := s.sessions.map (fun e =>
      if e.1 = sid then (e.1, { e.2 with last_accessed := s.clock }) else e)
    let buffers' := s.buffers.map (fun e => if e.1 = sid then (e.1, s.clock) else e)
    { s with sessions := sessions', buffers := buffers' }
  | .close_session sid =>
    { s with sessions := s.sessions.filter (fun e => e.1 ≠ sid) }
  | .tick dt => { s with clock := s.clock + dt }
  | .prefetch_iter sid =>
    match map_get sid s.buffers with
    | none => s
    | some last_access =>
      if 300 < s.clock - last_access then
        { s with buffers := s.buffers.filter (fun e => e.1 ≠ sid) }
      else s
  | .buffer_cleanup =>
    { s with buffers := s.buffers.filter (fun e => s.clock - e.2 < 600) }

/-- Running a sequence of operations. -/
def stream_run (s : StreamingState) (ops : List StreamOp) : StreamingState :=
  ops.foldl stream_step s

/-- `StreamingServiceImpl::get_active_sessions` (served by
`GET /api/streams`): clones every value of the session map. -/
def get_active_sessions (s : StreamingState) : List SessionEntry :=
  s.sessions.map Prod.snd

/-! ## Reachable piece flag states

The `downloaded`/`verified` flags of a persisted piece are mutated in
exactly three places in the repository: the success path of
`DownloadService::complete_piece` (`mark_downloaded(); mark_verified(true)`),
its failure path (`mark_verified(false)`), and the success path of
`PieceManager::mark_piece_completed` (both flags set to `true`); the
hash-mismatch path of `mark_piece_completed` returns its error before any
repository update and so mutates nothing.  `PieceReach` is the set of
piece records reachable from `Piece::new` through them. -/
inductive PieceReach : Piece → Prop
  | new (hash : List Byte) : PieceReach (Piece.new hash)
  | complete_ok {p : Piece} (h : PieceReach p) :
      PieceReach ((p.mark_downloaded).mark_verified true)
  | complete_fail {p : Piece} (h : PieceReach p) :
      PieceReach (p.mark_verified false)
  | pm_completed {p : Piece} (h : PieceReach p) :
      PieceReach { p with downloaded := true, verified := true }

/-! ## Queue ordering with arrival timestamps

To state the FIFO half of the ordering claim the queue entries are paired
with a ghost arrival index (strictly increasing across `request_piece`
calls); the insertion ignores it, exactly as `request_piece` inserts by
priority alone.  `queue_reach q n` holds of every queue obtainable by `n`
arrivals interleaved with front pops (`get_next_piece_request`). -/
abbrev TimedRequest := PieceRequest × Nat

/-- Queues reachable by `request_piece` inserts (stamping arrivals
`0, 1, 2, …`) and `get_next_piece_request` front pops. -/
inductive queue_reach : List TimedRequest → Nat → Prop
  | nil : queue_reach [] 0
  | push {q : List TimedRequest} {n : Nat} (r : PieceRequest) (h : queue_reach q n) :
      queue_reach (insert_req (fun x => x.1.priority) (r, n) q) (n + 1)
  | pop {x : TimedRequest} {q : List TimedRequest} {n : Nat}
      (h : queue_reach (x :: q) n) : queue_reach q n

/-- Strict (priority descending, arrival ascending) ordering between queue
entries. -/
def req_before (a b : TimedRequest) : Prop :=
  b.1.priority.toNat < a.1.priority.toNat ∨
    (a.1.priority = b.1.priority ∧ a.2 < b.2)

/-! ## Shared lemmas and sample states -/

/-- Decidable equality on `Except`, so that concrete runs of the fallible
operations can be checked by `decide`. -/
instance exceptDecEq {ε α : Type} [DecidableEq ε] [DecidableEq α] :
    DecidableEq (Except ε α)
  | .ok a, .ok b =>
    if h : a = b then .isTrue (by rw [h])
    else .isFalse (by intro hc; cases hc; exact h rfl)
  | .ok _, .error _ => .isFalse (by intro h; cases h)
  | .error _, .ok _ => .isFalse (by intro h; cases h)
  | .error e, .error f =>
    if h : e = f then .isTrue (by rw [h])
    else .isFalse (by intro hc; cases hc; exact h rfl)

/-- A concrete digest function instantiating the opaque `sha1` parameter
in concrete runs; the control flow under scrutiny only depends on whether
the digest of the data equals the stored hash, so any function serves. -/
def digest_id : List Byte → List Byte := fun data => data

/-- A small torrent: two pieces of 2 bytes each, 4 bytes total. -/
def sample_torrent : Torrent :=
  { id := 1, piece_length := 2, piece_count := 2, total_size := 4 }

/-- A state of `sample_torrent` with both pieces downloaded and verified
and the backing file holding `[10, 20, 30, 40]`. -/
def sample_state : PMState :=
  { torrent := sample_torrent,
    pieces := [{ hash := [], downloaded := true, verified := true },
               { hash := [], downloaded := true, verified := true }],
    queue := [],
    file := [10, 20, 30, 40] }

/-- `insert_req` inserts exactly the new element: the result is a
permutation of the element consed onto the old queue. -/
theorem insert_req_perm {α : Type} (prio : α → PiecePriority) (r : α) :
    ∀ l : List α, (insert_req prio r l).Perm (r :: l)
  | [] => List.Perm.refl _
  | x :: xs => by
    unfold insert_req
    by_cases h : (prio x).toNat < (prio r).toNat
    · simp [h]
    · simp only [h, if_false]
      exact ((insert_req_perm prio r xs).cons x).trans (List.Perm.swap r x xs)

/-! ## C1 — `mark_piece_completed` and the backing file -/

/-- The C1 failing input: a fresh `sample_torrent` state whose backing
file holds zeroes and whose piece 0 expects the hash of `[97, 98]`. -/
def c1_state : PMState :=
  { torrent := sample_torrent,
    pieces := [{ hash := [97, 98], downloaded := false, verified := false },
               { hash := [99, 100], downloaded := false, verified := false }],
    queue := [],
    file := [0, 0, 0, 0] }

/-- C1.  The claim says that `mark_piece_completed`, given data whose
SHA-1 matches the stored hash, writes the data at
`piece_index * piece_length` in the backing file so that `read_piece_data`
returns the original bytes.  The code contradicts it: on the matching
input `[97, 98]` for piece 0, `mark_piece_completed` succeeds but leaves
the backing file untouched, and the subsequent `read_piece_data` returns
the file's pre-existing zero bytes, not the data. -/
theorem c1_mark_piece_completed_does_not_write :
    (mark_piece_completed digest_id c1_state 0 [97, 98]).map PMState.file
        = .ok c1_state.file ∧
      (mark_piece_completed digest_id c1_state 0 [97, 98]).map
          (fun s' => read_piece_data s' 0) = .ok (.ok [0, 0]) ∧
      ([0, 0] : List Byte) ≠ [97, 98] := by
  decide

/-! ## C2 — `verified ⇒ downloaded`, and reversion on failure

The first half of the claim holds: every reachable piece satisfies
`verified ⇒ downloaded` (supporting lemma below; the hash-mismatch path of
`mark_piece_completed` mutates nothing, so it adds no reachable states).
The reversion half does not hold of the program: `Piece::mark_verified`
and the failure path of `DownloadService::complete_piece` do revert both
flags, but the verification site on the live download path,
`PieceManager::mark_piece_completed`, returns `ValidationError` on a hash
mismatch without touching the flags at all. -/

/-- Supporting invariant: every reachable piece record satisfies
`verified ⇒ downloaded`, and `mark_verified false` — the reversion the
spec describes, implemented in `piece.rs` and invoked only by
`complete_piece`'s failure path — clears both flags. -/
theorem pieceReach_verified_implies_downloaded (p : Piece) (h : PieceReach p) :
    (p.verified = true → p.downloaded = true) ∧
      (p.mark_verified false).downloaded = false ∧
      (p.mark_verified false).verified = false := by
  refine ⟨?_, by simp [Piece.mark_verified], by simp [Piece.mark_verified]⟩
  induction h with
  | new hash => simp [Piece.new]
  | complete_ok h ih => simp [Piece.mark_downloaded, Piece.mark_verified]
  | complete_fail h ih => simp [Piece.mark_verified]
  | pm_completed h ih => simp

/-- The C2 failing input: a `sample_torrent` state whose piece 0 expects
the hash of `[97, 98]` and is about to be verified and then re-verified
with corrupt data. -/
def c2_state : PMState :=
  { torrent := sample_torrent,
    pieces := [{ hash := [97, 98], downloaded := false, verified := false },
               { hash := [99, 100], downloaded := false, verified := false }],
    queue := [],
    file := [0, 0, 0, 0] }

/-- C2.  After piece 0 is marked completed with matching data (flags both
`true`), feeding it corrupt data makes `mark_piece_completed` fail
verification — yet the piece keeps `downloaded = true` and
`verified = true`: the error returns before any flag update, so the
claimed reversion to `false` never happens on this path. -/
theorem c2_failed_verification_keeps_flags :
    (mark_piece_completed digest_id c2_state 0 [97, 98]).map (fun s1 =>
        (s1.pieces.get? 0, mark_piece_completed digest_id s1 0 [0]))
      = .ok (some { hash := [97, 98], downloaded := true, verified := true },
             .error (.validationError "Piece hash verification failed")) := by
  decide

/-! ## C5 — `request_piece` neither deduplicates nor skips verified pieces -/

/-- C5 counterexample.  Piece 0 of `sample_state` is verified, yet two
`request_piece` calls for it insert two queue entries: the request is not
a no-op on a verified piece, the second call inserts a duplicate instead
of raising a priority, the queue holds a verified piece, and two requests
for the same (torrent, piece) are queued at once. -/
theorem c5_request_piece_not_noop_counterexample :
    is_piece_available sample_state 0 = true ∧
      (request_piece (request_piece sample_state 0 .normal "a") 0 .normal "b").queue.countP
          (fun r => r.piece_index == 0) = 2 := by
  decide

/-- C5 as amended.  `request_piece` unconditionally inserts exactly one
new entry — placed before the first strictly-lower-priority entry — never
consulting the piece's `verified` flag and never merging with an existing
request: the new queue is a permutation of the new request consed onto the
old queue, so duplicates and verified pieces can be queued. -/
theorem c5_request_piece_always_inserts (s : PMState) (piece_index : Nat)
    (priority : PiecePriority) (requester : String) :
    (request_piece s piece_index priority requester).queue.Perm
      ({ piece_index := piece_index, priority := priority, requester := requester } ::
        s.queue) := by
  exact insert_req_perm PieceRequest.priority _ s.queue

/-! ## C9 — idle sessions are never removed from the active list -/

/-- The C9 failing input: one session created at clock 0, then 11 minutes
(660 s) of inactivity, one background-buffering iteration and a
`cleanup_inactive_sessions` sweep. -/
def c9_final : StreamingState :=
  stream_run (stream_step { sessions := [], buffers := [], clock := 0 }
    (.create_session "sess" 1)) [.tick 660, .prefetch_iter "sess", .buffer_cleanup]

/-- C9.  After 11 idle minutes the background-buffering task has indeed
terminated (its buffer entry is gone), but nothing removes the session
from `StreamingServiceImpl.sessions`: `cleanup_inactive_sessions` is never
invoked anywhere in the repository and touches only the buffer map anyway,
so `get_active_sessions` — the source of `GET /api/streams` — still lists
the idle session, contradicting the claim that it is reaped. -/
theorem c9_idle_session_still_listed :
    map_get "sess" c9_final.buffers = none ∧
      map_get "sess" c9_final.sessions =
        some { torrent_id := 1, last_accessed := 0 } ∧
      get_active_sessions c9_final = [{ torrent_id := 1, last_accessed := 0 }] := by
  decide

/-! ## C10 — where the zero-length underflow actually happens -/

/-- C10 counterexample.  The claim says every `read_range` call with
`length = 0` underflows `u64` in `start + length - 1` instead of returning
an empty result.  With `start_offset = 2` (and piece length 2) there is no
underflow: the call returns `Ok` with an empty byte vector, and
`calculate_pieces_for_range` likewise returns an empty piece list. -/
theorem c10_length_zero_no_underflow_counterexample :
    read_range sample_state 2 0 = some (.ok [], sample_state) ∧
      calculate_pieces_for_range sample_torrent 2 0 = some [] := by
  decide

/-- For a positive multiple of the piece length, the end piece of a
zero-length range is one below the start piece. -/
theorem div_pred_of_dvd {ps start : Nat} (hps : 0 < ps) (hst : 0 < start)
    (hdvd : ps ∣ start) : (start - 1) / ps = start / ps - 1 := by
  have hq : ps * (start / ps) = start := Nat.mul_div_cancel' hdvd
  have hqpos : 0 < start / ps := Nat.div_pos (Nat.le_of_dvd hst hdvd) hps
  have hupper : (start - 1) / ps < start / ps := by
    rw [Nat.div_lt_iff_lt_mul hps, Nat.mul_comm (start / ps) ps, hq]
    omega
  have hlower : start / ps - 1 ≤ (start - 1) / ps := by
    rw [Nat.le_div_iff_mul_le hps, Nat.sub_one_mul, Nat.mul_comm (start / ps) ps, hq]
    omega
  omega

/-- C10 as amended.  The end-offset computation
`start_offset + length - 1` in `read_range` (and
`calculate_pieces_for_range`) underflows `u64` — a panic in debug builds —
exactly when `start_offset + length = 0`, i.e. only for
`start_offset = 0, length = 0`; a zero-length read at a positive
piece-aligned offset does not underflow and returns an empty result. -/
theorem c10_underflow_iff (s : PMState) (start len : Nat)
    (hps : 0 < s.torrent.piece_length) :
    (read_range s start len = none ↔ start + len = 0) ∧
      (0 < start → s.torrent.piece_length ∣ start →
        read_range s start 0 = some (.ok [], s)) := by
  constructor
  · constructor
    · intro h
      by_contra hc
      simp [read_range, hc] at h
    · intro h
      simp [read_range, h]
  · intro hst hdvd
    have hne : start + 0 ≠ 0 := by omega
    have hdiv : (start + 0 - 1) / s.torrent.piece_length
        = start / s.torrent.piece_length - 1 := by
      simpa using div_pred_of_dvd hps hst hdvd
    have hqpos : 0 < start / s.torrent.piece_length :=
      Nat.div_pos (Nat.le_of_dvd hst hdvd) hps
    simp only [read_range, hne, if_false]
    rw [hdiv]
    have hrange : start / s.torrent.piece_length - 1 + 1 - start / s.torrent.piece_length
        = 0 := by omega
    rw [hrange]
    rfl

/-- Witness for C10's amended theorem at `sample_state`, `start = 2`,
`length = 0`. -/
theorem c10_underflow_iff_witness :
    (read_range sample_state 2 0 = none ↔ 2 + 0 = 0) ∧
      (0 < 2 → sample_state.torrent.piece_length ∣ 2 →
        read_range sample_state 2 0 = some (.ok [], sample_state)) :=
  c10_underflow_iff sample_state 2 0 (by decide)

/-! ## C6 — (priority desc, FIFO) ordering of the pending queue -/

/-- The priority discriminant determines the priority. -/
theorem PiecePriority.toNat_inj {a b : PiecePriority} (h : a.toNat = b.toNat) :
    a = b := by
  cases a <;> cases b <;> simp_all [PiecePriority.toNat]

/-- The ghost arrival stamps do not influence the insertion: erasing them
recovers exactly the `request_piece` insertion on the plain queue. -/
theorem insert_req_map_fst (r : PieceRequest) (n : Nat) (q : List TimedRequest) :
    (insert_req (fun x => x.1.priority) (r, n) q).map Prod.fst
      = insert_req PieceRequest.priority r (q.map Prod.fst) := by
  induction q with
  | nil => rfl
  | cons x xs ih =>
    unfold insert_req
    by_cases h : (x.1.priority).toNat < r.priority.toNat
    · simp [h]
    · simp [h, ih]

/-- Inserting a request with a fresh (maximal) arrival stamp preserves the
strict (priority desc, arrival asc) ordering of the queue. -/
theorem insert_req_pairwise {q : List TimedRequest} {n : Nat} (r : PieceRequest)
    (hfresh : ∀ x ∈ q, x.2 < n) (hq : q.Pairwise req_before) :
    (insert_req (fun x => x.1.priority) (r, n) q).Pairwise req_before := by
  induction q with
  | nil => simp [insert_req]
  | cons x xs ih =>
    rw [List.pairwise_cons] at hq
    obtain ⟨hx, hxs⟩ := hq
    unfold insert_req
    by_cases h : (x.1.priority).toNat < (r.priority).toNat
    · simp only [h, if_true]
      rw [List.pairwise_cons]
      refine ⟨?_, List.pairwise_cons.mpr ⟨hx, hxs⟩⟩
      intro y hy
      rcases List.mem_cons.mp hy with hy | hy
      · subst hy
        exact Or.inl h
      · rcases hx y hy with hlt | ⟨heq, _⟩
        · exact Or.inl (lt_trans hlt h)
        · exact Or.inl (by rw [← heq]; exact h)
    · simp only [h, if_false]
      rw [List.pairwise_cons]
      refine ⟨?_, ih (fun y hy => hfresh y (List.mem_cons_of_mem x hy)) hxs⟩
      intro y hy
      have hy' := (insert_req_perm (fun x => x.1.priority) (r, n) xs).mem_iff.mp hy
      rcases List.mem_cons.mp hy' with hy' | hy'
      · subst hy'
        rcases Nat.lt_or_ge (r.priority).toNat (x.1.priority).toNat with hlt | hge
        · exact Or.inl hlt
        · have heq : (x.1.priority).toNat = (r.priority).toNat := by omega
          exact Or.inr ⟨PiecePriority.toNat_inj heq, hfresh x (List.mem_cons_self x xs)⟩
      · exact hx y hy'

/-- Every reachable queue is strictly ordered by (priority desc, arrival
asc), and all its stamps are below the arrival counter. -/
theorem queue_reach_pairwise {q : List TimedRequest} {n : Nat} (h : queue_reach q n) :
    q.Pairwise req_before ∧ ∀ x ∈ q, x.2 < n := by
  induction h with
  | nil => simp
  | push r h ih =>
    obtain ⟨hp, hf⟩ := ih
    refine ⟨insert_req_pairwise r hf hp, ?_⟩
    intro x hx
    have hx' := (insert_req_perm (fun x => x.1.priority) (r, _) _).mem_iff.mp hx
    rcases List.mem_cons.mp hx' with hx' | hx'
    · subst hx'
      omega
    · exact Nat.lt_trans (hf x hx') (Nat.lt_succ_self _)
  | pop h ih =>
    obtain ⟨hp, hf⟩ := ih
    exact ⟨hp.of_cons, fun x hx => hf x (List.mem_cons_of_mem _ hx)⟩

/-- C6.  In every queue reachable by a sequence of `request_piece` calls
(and front pops by `get_next_piece_request`), the front entry — the one
`get_next_piece_request` returns — has the highest priority present, and
among entries of equal priority it is the earliest inserted (smallest
arrival stamp). -/
theorem c6_queue_priority_fifo {front : TimedRequest} {q : List TimedRequest} {n : Nat}
    (hr : queue_reach (front :: q) n) :
    (∀ x ∈ q, (x.1.priority).toNat ≤ (front.1.priority).toNat) ∧
      (∀ x ∈ q, x.1.priority = front.1.priority → front.2 < x.2) := by
  have hp := (queue_reach_pairwise hr).1
  rw [List.pairwise_cons] at hp
  constructor
  · intro x hx
    rcases hp.1 x hx with hlt | ⟨heq, _⟩
    · exact Nat.le_of_lt hlt
    · exact Nat.le_of_eq (congrArg PiecePriority.toNat heq.symm)
  · intro x hx heq
    rcases hp.1 x hx with hlt | ⟨_, hstamp⟩
    · rw [heq] at hlt
      omega
    · exact hstamp

/-- Witness for C6: after requesting piece 1 at `Normal` and then piece 2
at `Urgent`, the front of the queue is the urgent request and the ordering
facts hold. -/
theorem c6_queue_priority_fifo_witness :
    (∀ x ∈ [(({ piece_index := 1, priority := .normal, requester := "a" } : PieceRequest), 0)],
        (x.1.priority).toNat ≤
          ((({ piece_index := 2, priority := .urgent, requester := "b" } : PieceRequest)).priority).toNat) ∧
      (∀ x ∈ [(({ piece_index := 1, priority := .normal, requester := "a" } : PieceRequest), 0)],
        x.1.priority = ({ piece_index := 2, priority := .urgent, requester := "b" } : PieceRequest).priority →
          (1 : Nat) < x.2) :=
  c6_queue_priority_fifo
    (show queue_reach
        ((({ piece_index := 2, priority := .urgent, requester := "b" } : PieceRequest), 1) ::
          [(({ piece_index := 1, priority := .normal, requester := "a" } : PieceRequest), 0)]) 2
      from queue_reach.push { piece_index := 2, priority := .urgent, requester := "b" }
        (queue_reach.push { piece_index := 1, priority := .normal, requester := "a" }
          queue_reach.nil))

/-! ## C7 — compact peer list decoding -/

/-- Chunk-wise specification of the compact decode loop: a byte string of
length `6 * N` yields `N` peers, the `i`-th built from bytes
`6i .. 6i+5`. -/
theorem decode_compact_peers_spec (torrent_id : Int) :
    ∀ (N : Nat) (bs : List Byte), bs.length = 6 * N →
      (decode_compact_peers torrent_id bs).length = N ∧
      ∀ i, i < N →
        (decode_compact_peers torrent_id bs).get? i = some (peer_of_chunk torrent_id
          ((bs.get? (6 * i)).getD 0) ((bs.get? (6 * i + 1)).getD 0)
          ((bs.get? (6 * i + 2)).getD 0) ((bs.get? (6 * i + 3)).getD 0)
          ((bs.get? (6 * i + 4)).getD 0) ((bs.get? (6 * i + 5)).getD 0)) := by
  intro N
  induction N with
  | zero =>
    intro bs h
    have : bs = [] := List.length_eq_zero.mp (by omega)
    subst this
    refine ⟨rfl, ?_⟩
    intro i hi
    omega
  | succ N ih =>
    intro bs h
    rcases bs with _ | ⟨b0, bs⟩
    · simp only [List.length_nil] at h; omega
    rcases bs with _ | ⟨b1, bs⟩
    · simp only [List.length_cons, List.length_nil] at h; omega
    rcases bs with _ | ⟨b2, bs⟩
    · simp only [List.length_cons, List.length_nil] at h; omega
    rcases bs with _ | ⟨b3, bs⟩
    · simp only [List.length_cons, List.length_nil] at h; omega
    rcases bs with _ | ⟨b4, bs⟩
    · simp only [List.length_cons, List.length_nil] at h; omega
    rcases bs with _ | ⟨b5, rest⟩
    · simp only [List.length_cons, List.length_nil] at h; omega
    have hrest : rest.length = 6 * N := by
      simp only [List.length_cons] at h; omega
    obtain ⟨ihlen, ihget⟩ := ih rest hrest
    constructor
    · simpa [decode_compact_peers] using ihlen
    · intro i hi
      cases i with
      | zero => simp [decode_compact_peers]
      | succ i =>
        have hget := ihget i (by omega)
        have e0 : (b0 :: b1 :: b2 :: b3 :: b4 :: b5 :: rest).get? (6 * (i + 1))
            = rest.get? (6 * i) := by
          rw [show 6 * (i + 1) = 6 * i + 1 + 1 + 1 + 1 + 1 + 1 from by ring]
          rfl
        have e1 : (b0 :: b1 :: b2 :: b3 :: b4 :: b5 :: rest).get? (6 * (i + 1) + 1)
            = rest.get? (6 * i + 1) := by
          rw [show 6 * (i + 1) + 1 = 6 * i + 1 + 1 + 1 + 1 + 1 + 1 + 1 from by ring]
          rfl
        have e2 : (b0 :: b1 :: b2 :: b3 :: b4 :: b5 :: rest).get? (6 * (i + 1) + 2)
            = rest.get? (6 * i + 2) := by
          rw [show 6 * (i + 1) + 2 = 6 * i + 2 + 1 + 1 + 1 + 1 + 1 + 1 from by ring]
          rfl
        have e3 : (b0 :: b1 :: b2 :: b3 :: b4 :: b5 :: rest).get? (6 * (i + 1) + 3)
            = rest.get? (6 * i + 3) := by
          rw [show 6 * (i + 1) + 3 = 6 * i + 3 + 1 + 1 + 1 + 1 + 1 + 1 from by ring]
          rfl
        have e4 : (b0 :: b1 :: b2 :: b3 :: b4 :: b5 :: rest).get? (6 * (i + 1) + 4)
            = rest.get? (6 * i + 4) := by
          rw [show 6 * (i + 1) + 4 = 6 * i + 4 + 1 + 1 + 1 + 1 + 1 + 1 from by ring]
          rfl
        have e5 : (b0 :: b1 :: b2 :: b3 :: b4 :: b5 :: rest).get? (6 * (i + 1) + 5)
            = rest.get? (6 * i + 5) := by
          rw [show 6 * (i + 1) + 5 = 6 * i + 5 + 1 + 1 + 1 + 1 + 1 + 1 from by ring]
          rfl
        rw [e0, e1, e2, e3, e4, e5]
        simp only [decode_compact_peers, List.get?_cons_succ]
        exact hget

/-- C7.  A compact peer byte string of length `6 * N` decodes to exactly
`N` peers, the `i`-th peer's IP being the dotted-quad rendering of bytes
`6i .. 6i+3` and its port the big-endian 16-bit integer `256·b₄ + b₅`
from bytes `6i+4` and `6i+5` (see `peer_of_chunk`); a byte string whose
length is not a multiple of 6 is rejected with a `TrackerError`. -/
theorem c7_compact_peers_decode (torrent_id : Int) (bs : List Byte) :
    (∀ N, bs.length = 6 * N →
      ∃ peers, parse_compact_peers torrent_id bs = .ok peers ∧
        peers.length = N ∧
        ∀ i, i < N →
          peers.get? i = some (peer_of_chunk torrent_id
            ((bs.get? (6 * i)).getD 0) ((bs.get? (6 * i + 1)).getD 0)
            ((bs.get? (6 * i + 2)).getD 0) ((bs.get? (6 * i + 3)).getD 0)
            ((bs.get? (6 * i + 4)).getD 0) ((bs.get? (6 * i + 5)).getD 0))) ∧
    (bs.length % 6 ≠ 0 →
      parse_compact_peers torrent_id bs = .error (.trackerError "Invalid compact peer format")) := by
  constructor
  · intro N h
    obtain ⟨hlen, hget⟩ := decode_compact_peers_spec torrent_id N bs h
    refine ⟨decode_compact_peers torrent_id bs, ?_, hlen, hget⟩
    have hmod : bs.length % 6 = 0 := by omega
    simp [parse_compact_peers, hmod]
  · intro h
    simp [parse_compact_peers, h]

/-- The concrete compact peer byte string used by the C7 witness. -/
def c7_bytes : List Byte := [1, 2, 3, 4, 0, 80, 5, 6, 7, 8, 0, 81]

/-- Witness for C7: a 12-byte compact list yields its two peers, and a
1-byte list is rejected. -/
theorem c7_compact_peers_decode_witness :
    (∃ peers, parse_compact_peers 1 c7_bytes = .ok peers ∧
        peers.length = 2 ∧
        ∀ i, i < 2 →
          peers.get? i = some (peer_of_chunk 1
            ((c7_bytes.get? (6 * i)).getD 0) ((c7_bytes.get? (6 * i + 1)).getD 0)
            ((c7_bytes.get? (6 * i + 2)).getD 0) ((c7_bytes.get? (6 * i + 3)).getD 0)
            ((c7_bytes.get? (6 * i + 4)).getD 0) ((c7_bytes.get? (6 * i + 5)).getD 0))) ∧
      parse_compact_peers 1 [9] = .error (.trackerError "Invalid compact peer format") := by
  exact ⟨(c7_compact_peers_decode 1 c7_bytes).1 2 (by decide),
    (c7_compact_peers_decode 1 [9]).2 (by decide)⟩

/-! ## C8 — open-ended range headers -/

/-- Decimal digit characters: code point, digit-ness, and distinctness
from the range separator `-`. -/
theorem digit_char_facts {d : Nat} (hd : d < 10) :
    (Char.ofNat (48 + d)).toNat = 48 + d ∧
      (Char.ofNat (48 + d)).isDigit = true ∧
      Char.ofNat (48 + d) ≠ '-' := by
  interval_cases d <;> exact ⟨by decide, by decide, by decide⟩

/-- Every character `decimal_chars` produces is a digit. -/
theorem decimal_chars_digits (n : Nat) : ∀ c ∈ decimal_chars n, c.isDigit = true := by
  intro c hc
  unfold decimal_chars at hc
  by_cases h0 : n = 0
  · simp [h0] at hc
    subst hc
    decide
  · simp only [h0, if_false, List.mem_map, List.mem_reverse] at hc
    obtain ⟨d, hd, rfl⟩ := hc
    exact (digit_char_facts (Nat.digits_lt_base (by norm_num) hd)).2.1

/-- No character of `decimal_chars` is the separator `-`. -/
theorem decimal_chars_ne_dash (n : Nat) : ∀ c ∈ decimal_chars n, c ≠ '-' := by
  intro c hc
  have hdig := decimal_chars_digits n c hc
  intro heq
  subst heq
  simp [Char.isDigit] at hdig

/-- The digit fold of `parse_u64` over a rendered digit list recovers the
little-endian digit value. -/
theorem foldl_digits_eq :
    ∀ ds : List Nat, (∀ d ∈ ds, d < 10) → ∀ a : Nat,
      List.foldl (fun acc c => 10 * acc + (c.toNat - 48)) a
          (ds.reverse.map (fun d => Char.ofNat (48 + d)))
        = a * 10 ^ ds.length + Nat.ofDigits 10 ds := by
  intro ds
  induction ds with
  | nil => intro _ a; simp [Nat.ofDigits]
  | cons d tl ih =>
    intro h a
    have hd : d < 10 := h d (List.mem_cons_self d tl)
    have htl : ∀ x ∈ tl, x < 10 := fun x hx => h x (List.mem_cons_of_mem d hx)
    have htoNat := (digit_char_facts hd).1
    simp only [List.reverse_cons, List.map_append, List.map_cons, List.map_nil,
      List.foldl_append, List.foldl_cons, List.foldl_nil]
    rw [ih htl a, htoNat, Nat.ofDigits_cons]
    simp only [List.length_cons]
    ring_nf
    omega

/-- `str::parse::<u64>` inverts the decimal rendering. -/
theorem parse_u64_decimal_chars (n : Nat) : parse_u64 (decimal_chars n) = some n := by
  by_cases h0 : n = 0
  · subst h0
    decide
  · have hne : Nat.digits 10 n ≠ [] := Nat.digits_ne_nil_iff_ne_zero.mpr h0
    have hempty : (decimal_chars n).isEmpty = false := by
      unfold decimal_chars
      simp only [h0, if_false]
      rw [List.isEmpty_eq_false_iff_exists_mem]
      obtain ⟨d, hd⟩ := List.exists_mem_of_ne_nil _ hne
      exact ⟨_, List.mem_map_of_mem _ (List.mem_reverse.mpr hd)⟩
    have hall : (decimal_chars n).all Char.isDigit = true :=
      List.all_eq_true.mpr (decimal_chars_digits n)
    unfold parse_u64
    rw [hempty, hall]
    simp only [if_false, if_true, Bool.false_eq_true]
    unfold decimal_chars
    simp only [h0, if_false]
    rw [foldl_digits_eq (Nat.digits 10 n)
      (fun d hd => Nat.digits_lt_base (by norm_num) hd) 0]
    simp [Nat.ofDigits_digits]

/-- Stripping a literal prefix from a string built with it. -/
theorem strip_prefix_append (p r : List Char) : strip_prefix p (p ++ r) = some r := by
  unfold strip_prefix
  have hpre : p.isPrefixOf (p ++ r) = true := by
    rw [List.isPrefixOf_iff_prefix]
    exact List.prefix_append p r
  simp [hpre, List.drop_left]

/-- Splitting at the first separator after a separator-free prefix. -/
theorem split_once_append (sep : Char) (ys : List Char) :
    ∀ xs : List Char, (∀ x ∈ xs, x ≠ sep) →
      split_once sep (xs ++ sep :: ys) = some (xs, ys) := by
  intro xs
  induction xs with
  | nil => intro _; simp [split_once]
  | cons x xs ih =>
    intro h
    have hx : x ≠ sep := h x (List.mem_cons_self x xs)
    have := ih (fun y hy => h y (List.mem_cons_of_mem x hy))
    simp [split_once, hx, this]

/-- C8.  For `file_size > 0` and a header `bytes=start-` with
`start < file_size`, the parsed range is `[start, file_size-1]`: the
parser yields an open-ended `StreamRange` starting at `start`, its
`length()` — the content length `stream_content` serves — is
`file_size - start`, and the served slice starts at the absolute offset
`file_offset + start`. -/
theorem c8_open_end_range (file_size start file_offset : Nat)
    (h0 : 0 < file_size) (hs : start < file_size) :
    parse_range_header (range_header_open start) file_size
        = some { start := start, ending := none, total_size := file_size } ∧
      StreamRange.length { start := start, ending := none, total_size := file_size }
        = file_size - start ∧
      stream_content_range_setup file_size file_offset
          (some { start := start, ending := none, total_size := file_size })
        = .ok (file_offset + start, file_size - start) := by
  have hlen : StreamRange.length
      { start := start, ending := none, total_size := file_size } = file_size - start := by
    unfold StreamRange.length
    simp only [Option.getD_none]
    omega
  refine ⟨?_, hlen, ?_⟩
  · unfold range_header_open parse_range_header
    have h1 := strip_prefix_append "bytes=".toList (decimal_chars start ++ ['-'])
    have h2 := split_once_append '-' [] (decimal_chars start) (decimal_chars_ne_dash start)
    have h3 := parse_u64_decimal_chars start
    simp only [List.append_assoc, h1, h2, h3, List.isEmpty_nil, if_true]
  · unfold stream_content_range_setup
    simp only [Option.getD_some]
    rw [if_neg (by omega), hlen]

/-- Witness for C8 at `file_size = 10`, `start = 3`, `file_offset = 100`. -/
theorem c8_open_end_range_witness :
    parse_range_header (range_header_open 3) 10
        = some { start := 3, ending := none, total_size := 10 } ∧
      StreamRange.length { start := 3, ending := none, total_size := 10 } = 10 - 3 ∧
      stream_content_range_setup 10 100
          (some { start := 3, ending := none, total_size := 10 })
        = .ok (100 + 3, 10 - 3) :=
  c8_open_end_range 10 3 100 (by decide) (by decide)

/-! ## C3/C4 — `read_range` machinery

Throughout, the torrent metadata is consistent in the sense of the data
model: `piece_length > 0`, `total_size > 0`,
`piece_count = ⌈total_size / piece_length⌉`, and the backing file holds
exactly `total_size` bytes.  Piece `i` (for `i < piece_count`) then covers
the byte interval `[i · ps, min ((i+1) · ps) total_size)`. -/

/-- The ceiling form of the piece-count invariant, in the shape the
induction uses. -/
theorem piece_count_pred {T ps : Nat} (hps : 0 < ps) (hpos : 0 < T) :
    (T + ps - 1) / ps = (T - 1) / ps + 1 := by
  rw [show T + ps - 1 = (T - 1) + ps from by omega]
  exact Nat.add_div_right _ hps

/-- On an available piece of a consistent torrent, `read_piece_data`
returns the file slice of the piece's byte interval. -/
theorem read_piece_data_ok (s : PMState) (i : Nat)
    (hps : 0 < s.torrent.piece_length)
    (hpos : 0 < s.torrent.total_size)
    (hcount : s.torrent.piece_count = (s.torrent.total_size - 1) / s.torrent.piece_length + 1)
    (hfile : s.file.length = s.torrent.total_size)
    (hi : i < s.torrent.piece_count)
    (hav : is_piece_available s i = true) :
    read_piece_data s i = .ok ((s.file.drop (i * s.torrent.piece_length)).take
      (min ((i + 1) * s.torrent.piece_length) s.torrent.total_size
        - i * s.torrent.piece_length)) := by
  set ps := s.torrent.piece_length with hps_def
  set T := s.torrent.total_size with hT_def
  have hmul : (i + 1) * ps = i * ps + ps := by ring
  have hoff : i * ps ≤ T - 1 := by
    have hle : i ≤ (T - 1) / ps := by omega
    have := (Nat.le_div_iff_mul_le hps).mp hle
    omega
  have hactual : (if i = s.torrent.piece_count - 1
      then min (T - i * ps) ps else ps) = min ((i + 1) * ps) T - i * ps := by
    by_cases hlast : i = s.torrent.piece_count - 1
    · subst hlast
      rw [if_pos rfl]
      omega
    · have hi1 : i + 1 ≤ (T - 1) / ps := by omega
      have := (Nat.le_div_iff_mul_le hps).mp hi1
      simp only [hlast, if_false]
      omega
  unfold read_piece_data
  rw [if_neg (by simp [hav])]
  simp only [← hps_def, ← hT_def]
  rw [hactual, if_pos (by omega)]

/-- Sub-slicing a piece slice is slicing the file. -/
theorem slice_slice (file : List Byte) (off rs re L : Nat) (hre : re ≤ L) :
    (((file.drop off).take L).drop rs).take (re - rs)
      = (file.drop (off + rs)).take (re - rs) := by
  rw [List.drop_take, List.take_take, List.drop_drop]
  rw [show min (re - rs) (L - rs) = re - rs from by omega]

/-- Length of an in-bounds file slice. -/
theorem slice_length (file : List Byte) (off m : Nat) (h : off + m ≤ file.length) :
    ((file.drop off).take m).length = m := by
  rw [List.length_take, List.length_drop]
  omega

/-- One unfolding step of the `read_range` loop on an available piece with
known piece data. -/
theorem read_range_loop_cons_ok (s : PMState) (piece_index : Nat) (rest : List Nat)
    (cur rem : Nat) (acc pd : List Byte)
    (hav : is_piece_available s piece_index = true)
    (hpd : read_piece_data s piece_index = .ok pd) :
    read_range_loop s (piece_index :: rest) cur rem acc
      = if (if piece_index * s.torrent.piece_length < cur
              then cur - piece_index * s.torrent.piece_length else 0) < pd.length ∧
           (if piece_index * s.torrent.piece_length < cur
              then cur - piece_index * s.torrent.piece_length else 0) <
             (if cur + rem - 1 < piece_index * s.torrent.piece_length + pd.length - 1
                then cur + rem - 1 - piece_index * s.torrent.piece_length + 1
                else pd.length) then
          (if rem - ((pd.drop (if piece_index * s.torrent.piece_length < cur
                  then cur - piece_index * s.torrent.piece_length else 0)).take
                ((if cur + rem - 1 < piece_index * s.torrent.piece_length + pd.length - 1
                    then cur + rem - 1 - piece_index * s.torrent.piece_length + 1
                    else pd.length) -
                  (if piece_index * s.torrent.piece_length < cur
                    then cur - piece_index * s.torrent.piece_length else 0))).length = 0 then
            (.ok (acc ++ (pd.drop (if piece_index * s.torrent.piece_length < cur
                then cur - piece_index * s.torrent.piece_length else 0)).take
              ((if cur + rem - 1 < piece_index * s.torrent.piece_length + pd.length - 1
                  then cur + rem - 1 - piece_index * s.torrent.piece_length + 1
                  else pd.length) -
                (if piece_index * s.torrent.piece_length < cur
                  then cur - piece_index * s.torrent.piece_length else 0))), s)
          else
            read_range_loop s rest
              (cur + ((pd.drop (if piece_index * s.torrent.piece_length < cur
                  then cur - piece_index * s.torrent.piece_length else 0)).take
                ((if cur + rem - 1 < piece_index * s.torrent.piece_length + pd.length - 1
                    then cur + rem - 1 - piece_index * s.torrent.piece_length + 1
                    else pd.length) -
                  (if piece_index * s.torrent.piece_length < cur
                    then cur - piece_index * s.torrent.piece_length else 0))).length)
              (rem - ((pd.drop (if piece_index * s.torrent.piece_length < cur
                  then cur - piece_index * s.torrent.piece_length else 0)).take
                ((if cur + rem - 1 < piece_index * s.torrent.piece_length + pd.length - 1
                    then cur + rem - 1 - piece_index * s.torrent.piece_length + 1
                    else pd.length) -
                  (if piece_index * s.torrent.piece_length < cur
                    then cur - piece_index * s.torrent.piece_length else 0))).length)
              (acc ++ (pd.drop (if piece_index * s.torrent.piece_length < cur
                  then cur - piece_index * s.torrent.piece_length else 0)).take
                ((if cur + rem - 1 < piece_index * s.torrent.piece_length + pd.length - 1
                    then cur + rem - 1 - piece_index * s.torrent.piece_length + 1
                    else pd.length) -
                  (if piece_index * s.torrent.piece_length < cur
                    then cur - piece_index * s.torrent.piece_length else 0))))
        else if rem = 0 then (.ok acc, s)
        else read_range_loop s rest cur rem acc := by
  simp only [read_range_loop, hpd]
  rw [if_neg (by simp [hav])]

/-- Correctness of the `read_range` loop when every piece of the span is
available: starting inside piece `i` with `k` further pieces to go (the
last piece of the range being `i + k`), the loop appends exactly the file
bytes `[cur, cur + rem)` to the accumulator and leaves the state alone. -/
theorem read_range_loop_ok (s : PMState)
    (hps : 0 < s.torrent.piece_length)
    (hpos : 0 < s.torrent.total_size)
    (hcount : s.torrent.piece_count = (s.torrent.total_size - 1) / s.torrent.piece_length + 1)
    (hfile : s.file.length = s.torrent.total_size) :
    ∀ (k i cur rem : Nat) (acc : List Byte),
      0 < rem →
      i * s.torrent.piece_length ≤ cur →
      cur < min ((i + 1) * s.torrent.piece_length) s.torrent.total_size →
      cur + rem ≤ s.torrent.total_size →
      i + k = (cur + rem - 1) / s.torrent.piece_length →
      (∀ j, i ≤ j → j ≤ i + k → is_piece_available s j = true) →
      read_range_loop s (List.range' i (k + 1)) cur rem acc
        = (.ok (acc ++ (s.file.drop cur).take rem), s) := by
  intro k
  induction k with
  | zero =>
    intro i cur rem acc hrem hlo hhi hle hend hav
    have hmul : (i + 1) * s.torrent.piece_length = i * s.torrent.piece_length
        + s.torrent.piece_length := by ring
    have hi_lt : i < s.torrent.piece_count := by
      have hd : (cur + rem - 1) / s.torrent.piece_length
          ≤ (s.torrent.total_size - 1) / s.torrent.piece_length :=
        Nat.div_le_div_right (by omega)
      omega
    have havi : is_piece_available s i = true := hav i (Nat.le_refl i) (by omega)
    have hpd := read_piece_data_ok s i hps hpos hcount hfile hi_lt havi
    have hlenpd : ((s.file.drop (i * s.torrent.piece_length)).take
        (min ((i + 1) * s.torrent.piece_length) s.torrent.total_size
          - i * s.torrent.piece_length)).length
        = min ((i + 1) * s.torrent.piece_length) s.torrent.total_size
          - i * s.torrent.piece_length := by
      apply slice_length
      omega
    -- the whole remaining range lies inside piece `i`
    have hEcap : cur + rem ≤ min ((i + 1) * s.torrent.piece_length) s.torrent.total_size := by
      have hdiv : cur + rem - 1 < (i + 1) * s.torrent.piece_length := by
        have := (Nat.div_lt_iff_lt_mul hps).mp
          (show (cur + rem - 1) / s.torrent.piece_length < i + 1 by omega)
        omega
      omega
    rw [List.range'_succ]
    rw [read_range_loop_cons_ok s i _ cur rem acc _ havi hpd]
    simp only [hlenpd]
    have hrs : (if i * s.torrent.piece_length < cur
        then cur - i * s.torrent.piece_length else 0)
        = cur - i * s.torrent.piece_length := by
      split <;> omega
    rw [hrs]
    set ps := s.torrent.piece_length with hps_def
    set T := s.torrent.total_size with hT_def
    set M := min ((i + 1) * ps) T with hM_def
    -- the computed read endpoint, in either branch, is `cur + rem - i * ps`
    have hre : (if cur + rem - 1 < i * ps + (M - i * ps) - 1
        then cur + rem - 1 - i * ps + 1 else M - i * ps)
        = cur + rem - i * ps := by
      split <;> omega
    rw [hre]
    rw [if_pos (by constructor <;> omega)]
    have hchunk : (((s.file.drop (i * ps)).take (M - i * ps)).drop (cur - i * ps)).take
        (cur + rem - i * ps - (cur - i * ps))
        = (s.file.drop cur).take rem := by
      have := slice_slice s.file (i * ps) (cur - i * ps) (cur + rem - i * ps) (M - i * ps)
        (by omega)
      rw [show cur + rem - i * ps - (cur - i * ps) = rem from by omega] at this ⊢
      rw [this, show i * ps + (cur - i * ps) = cur from by omega]
    rw [hchunk]
    have hcl : ((s.file.drop cur).take rem).length = rem := by
      apply slice_length
      omega
    rw [hcl, if_pos (by omega)]

  | succ k ih =>
    intro i cur rem acc hrem hlo hhi hle hend hav
    have hmul : (i + 1) * s.torrent.piece_length = i * s.torrent.piece_length
        + s.torrent.piece_length := by ring
    have hi_lt : i < s.torrent.piece_count := by
      have hd : (cur + rem - 1) / s.torrent.piece_length
          ≤ (s.torrent.total_size - 1) / s.torrent.piece_length :=
        Nat.div_le_div_right (by omega)
      omega
    have havi : is_piece_available s i = true := hav i (Nat.le_refl i) (by omega)
    have hpd := read_piece_data_ok s i hps hpos hcount hfile hi_lt havi
    -- the range continues past piece `i`
    have hnext : (i + 1) * s.torrent.piece_length ≤ cur + rem - 1 := by
      have := (Nat.le_div_iff_mul_le hps).mp
        (show i + 1 ≤ (cur + rem - 1) / s.torrent.piece_length by omega)
      omega
    have hMfull : min ((i + 1) * s.torrent.piece_length) s.torrent.total_size
        = (i + 1) * s.torrent.piece_length := by omega
    have hlenpd : ((s.file.drop (i * s.torrent.piece_length)).take
        (min ((i + 1) * s.torrent.piece_length) s.torrent.total_size
          - i * s.torrent.piece_length)).length
        = min ((i + 1) * s.torrent.piece_length) s.torrent.total_size
          - i * s.torrent.piece_length := by
      apply slice_length
      omega
    rw [List.range'_succ]
    rw [read_range_loop_cons_ok s i _ cur rem acc _ havi hpd]
    simp only [hlenpd]
    have hrs : (if i * s.torrent.piece_length < cur
        then cur - i * s.torrent.piece_length else 0)
        = cur - i * s.torrent.piece_length := by
      split <;> omega
    rw [hrs]
    set ps := s.torrent.piece_length with hps_def
    set T := s.torrent.total_size with hT_def
    set M := min ((i + 1) * ps) T with hM_def
    have hre : (if cur + rem - 1 < i * ps + (M - i * ps) - 1
        then cur + rem - 1 - i * ps + 1 else M - i * ps)
        = M - i * ps := by
      split <;> omega
    rw [hre]
    rw [if_pos (by constructor <;> omega)]
    have hchunk : (((s.file.drop (i * ps)).take (M - i * ps)).drop (cur - i * ps)).take
        (M - i * ps - (cur - i * ps))
        = (s.file.drop cur).take ((i + 1) * ps - cur) := by
      have := slice_slice s.file (i * ps) (cur - i * ps) (M - i * ps) (M - i * ps)
        (Nat.le_refl _)
      rw [this, show i * ps + (cur - i * ps) = cur from by omega]
      rw [show M - i * ps - (cur - i * ps) = (i + 1) * ps - cur from by omega]
    rw [hchunk]
    have hcl : ((s.file.drop cur).take ((i + 1) * ps - cur)).length
        = (i + 1) * ps - cur := by
      apply slice_length
      omega
    rw [hcl]
    rw [if_neg (by omega)]
    rw [show cur + ((i + 1) * ps - cur) = (i + 1) * ps from by omega]
    have hih := ih (i + 1) ((i + 1) * ps) (rem - ((i + 1) * ps - cur))
      (acc ++ (s.file.drop cur).take ((i + 1) * ps - cur))
      (by omega) (Nat.le_refl _)
      (by
        have hmul2 : (i + 1 + 1) * ps = (i + 1) * ps + ps := by ring
        omega)
      (by omega)
      (by
        rw [show (i + 1) * ps + (rem - ((i + 1) * ps - cur)) = cur + rem from by omega]
        omega)
      (fun j h1 h2 => hav j (by omega) (by omega))
    rw [hih]
    rw [List.append_assoc]
    congr 1
    rw [show rem = ((i + 1) * ps - cur) + (rem - ((i + 1) * ps - cur)) from by omega]
    rw [List.take_add, List.drop_drop]
    rw [show cur + ((i + 1) * ps - cur) = (i + 1) * ps from by omega]
    rw [show (i + 1) * ps - cur + (rem - ((i + 1) * ps - cur)) - ((i + 1) * ps - cur)
      = rem - ((i + 1) * ps - cur) from by omega]

/-- C3.  On a consistent torrent whose backing file bytes stand as
written, a `read_range` whose pieces are all available returns exactly the
logical byte array slice `[start, start + len)` — the in-order
concatenation of the per-piece slices, across piece boundaries — and
leaves the state unchanged. -/
theorem c3_read_range_returns_logical_bytes (s : PMState) (start len : Nat)
    (hps : 0 < s.torrent.piece_length)
    (hpos : 0 < s.torrent.total_size)
    (hcount : s.torrent.piece_count
      = (s.torrent.total_size + s.torrent.piece_length - 1) / s.torrent.piece_length)
    (hfile : s.file.length = s.torrent.total_size)
    (hlen : 0 < len)
    (hrange : start + len ≤ s.torrent.total_size)
    (hav : ∀ j, start / s.torrent.piece_length ≤ j →
      j ≤ (start + len - 1) / s.torrent.piece_length →
      is_piece_available s j = true) :
    read_range s start len = some (.ok ((s.file.drop start).take len), s) := by
  have hcount' : s.torrent.piece_count
      = (s.torrent.total_size - 1) / s.torrent.piece_length + 1 := by
    rw [hcount]
    exact piece_count_pred hps hpos
  have hne : ¬ (start + len = 0) := by omega
  have hmono : start / s.torrent.piece_length
      ≤ (start + len - 1) / s.torrent.piece_length :=
    Nat.div_le_div_right (by omega)
  have hklen : (start + len - 1) / s.torrent.piece_length + 1
        - start / s.torrent.piece_length
      = ((start + len - 1) / s.torrent.piece_length
        - start / s.torrent.piece_length) + 1 := by
    omega
  have hloop := read_range_loop_ok s hps hpos hcount' hfile
    ((start + len - 1) / s.torrent.piece_length - start / s.torrent.piece_length)
    (start / s.torrent.piece_length) start len [] hlen
    (Nat.div_mul_le_self start s.torrent.piece_length)
    (by
      have h1 : start < (start / s.torrent.piece_length + 1) * s.torrent.piece_length :=
        (Nat.div_lt_iff_lt_mul hps).mp (Nat.lt_succ_self _)
      omega)
    hrange
    (by omega)
    (fun j h1 h2 => hav j h1 (by omega))
  simp only [read_range]
  rw [if_neg hne, hklen, hloop]
  simp

/-- Witness for C3 on `sample_state`: the cross-boundary range `[1, 3)`
returns bytes `[20, 30]`. -/
theorem c3_read_range_returns_logical_bytes_witness :
    read_range sample_state 1 2
      = some (.ok ((sample_state.file.drop 1).take 2), sample_state) :=
  c3_read_range_returns_logical_bytes sample_state 1 2 (by decide) (by decide)
    (by decide) (by decide) (by decide) (by decide)
    (by
      intro j h1 h2
      have hj : j ≤ 1 := by simpa [sample_state, sample_torrent] using h2
      interval_cases j <;> decide)

/-- One unfolding step of the `read_range` loop on an unavailable piece:
the loop submits an `Urgent` request by requester `"streaming"` for it and
fails with the not-ready error naming it. -/
theorem read_range_loop_cons_missing (s : PMState) (piece_index : Nat)
    (rest : List Nat) (cur rem : Nat) (acc : List Byte)
    (hnav : is_piece_available s piece_index = false) :
    read_range_loop s (piece_index :: rest) cur rem acc
      = (.error (.notFound ("Piece " ++ toString piece_index ++ " not ready for streaming")),
         request_piece s piece_index .urgent "streaming") := by
  simp only [read_range_loop]
  rw [if_pos hnav]

/-- The `read_range` loop, entered inside piece `i` with `k` more pieces
to go, whose first unavailable piece is `i + m`: it reaches that piece,
submits the `Urgent` request and returns the not-ready error. -/
theorem read_range_loop_not_ready (s : PMState)
    (hps : 0 < s.torrent.piece_length)
    (hpos : 0 < s.torrent.total_size)
    (hcount : s.torrent.piece_count = (s.torrent.total_size - 1) / s.torrent.piece_length + 1)
    (hfile : s.file.length = s.torrent.total_size) :
    ∀ (k i cur rem : Nat) (acc : List Byte) (m : Nat),
      0 < rem →
      i * s.torrent.piece_length ≤ cur →
      cur < min ((i + 1) * s.torrent.piece_length) s.torrent.total_size →
      cur + rem ≤ s.torrent.total_size →
      i + k = (cur + rem - 1) / s.torrent.piece_length →
      m ≤ k →
      is_piece_available s (i + m) = false →
      (∀ j, i ≤ j → j < i + m → is_piece_available s j = true) →
      read_range_loop s (List.range' i (k + 1)) cur rem acc
        = (.error (.notFound ("Piece " ++ toString (i + m) ++ " not ready for streaming")),
           request_piece s (i + m) .urgent "streaming") := by
  intro k
  induction k with
  | zero =>
    intro i cur rem acc m hrem hlo hhi hle hend hm hnav hbefore
    have hm0 : m = 0 := by omega
    subst hm0
    rw [List.range'_succ]
    exact read_range_loop_cons_missing s i _ cur rem acc hnav
  | succ k ih =>
    intro i cur rem acc m hrem hlo hhi hle hend hm hnav hbefore
    cases m with
    | zero =>
      rw [List.range'_succ]
      exact read_range_loop_cons_missing s i _ cur rem acc hnav
    | succ m =>
      have havi : is_piece_available s i = true := hbefore i (Nat.le_refl i) (by omega)
      have hmul : (i + 1) * s.torrent.piece_length = i * s.torrent.piece_length
          + s.torrent.piece_length := by ring
      have hi_lt : i < s.torrent.piece_count := by
        have hd : (cur + rem - 1) / s.torrent.piece_length
            ≤ (s.torrent.total_size - 1) / s.torrent.piece_length :=
          Nat.div_le_div_right (by omega)
        omega
      have hpd := read_piece_data_ok s i hps hpos hcount hfile hi_lt havi
      have hnext : (i + 1) * s.torrent.piece_length ≤ cur + rem - 1 := by
        have := (Nat.le_div_iff_mul_le hps).mp
          (show i + 1 ≤ (cur + rem - 1) / s.torrent.piece_length by omega)
        omega
      have hlenpd : ((s.file.drop (i * s.torrent.piece_length)).take
          (min ((i + 1) * s.torrent.piece_length) s.torrent.total_size
            - i * s.torrent.piece_length)).length
          = min ((i + 1) * s.torrent.piece_length) s.torrent.total_size
            - i * s.torrent.piece_length := by
        apply slice_length
        omega
      rw [List.range'_succ]
      rw [read_range_loop_cons_ok s i _ cur rem acc _ havi hpd]
      simp only [hlenpd]
      have hrs : (if i * s.torrent.piece_length < cur
          then cur - i * s.torrent.piece_length else 0)
          = cur - i * s.torrent.piece_length := by
        split <;> omega
      rw [hrs]
      set ps := s.torrent.piece_length with hps_def
      set T := s.torrent.total_size with hT_def
      set M := min ((i + 1) * ps) T with hM_def
      have hre : (if cur + rem - 1 < i * ps + (M - i * ps) - 1
          then cur + rem - 1 - i * ps + 1 else M - i * ps)
          = M - i * ps := by
        split <;> omega
      rw [hre]
      rw [if_pos (by constructor <;> omega)]
      have hchunk : (((s.file.drop (i * ps)).take (M - i * ps)).drop (cur - i * ps)).take
          (M - i * ps - (cur - i * ps))
          = (s.file.drop cur).take ((i + 1) * ps - cur) := by
        have := slice_slice s.file (i * ps) (cur - i * ps) (M - i * ps) (M - i * ps)
          (Nat.le_refl _)
        rw [this, show i * ps + (cur - i * ps) = cur from by omega]
        rw [show M - i * ps - (cur - i * ps) = (i + 1) * ps - cur from by omega]
      rw [hchunk]
      have hcl : ((s.file.drop cur).take ((i + 1) * ps - cur)).length
          = (i + 1) * ps - cur := by
        apply slice_length
        omega
      rw [hcl]
      rw [if_neg (by omega)]
      rw [show cur + ((i + 1) * ps - cur) = (i + 1) * ps from by omega]
      have hih := ih (i + 1) ((i + 1) * ps) (rem - ((i + 1) * ps - cur))
        (acc ++ (s.file.drop cur).take ((i + 1) * ps - cur)) m
        (by omega) (Nat.le_refl _)
        (by
          have hmul2 : (i + 1 + 1) * ps = (i + 1) * ps + ps := by ring
          omega)
        (by omega)
        (by
          rw [show (i + 1) * ps + (rem - ((i + 1) * ps - cur)) = cur + rem from by omega]
          omega)
        (by omega)
        (by rw [show i + 1 + m = i + (m + 1) from by omega]; exact hnav)
        (fun j h1 h2 => hbefore j (by omega) (by omega))
      rw [hih]
      rw [show i + 1 + m = i + (m + 1) from by omega]

/-- C4.  When the first unavailable piece of the requested range is `f`,
`read_range` returns no data: it submits an `Urgent` request for `f` by
requester `"streaming"` (the new queue contains that request) and fails
with the error naming `f` — concretely `DomainError::NotFound("Piece f not
ready for streaming")`, the not-ready signal the streaming layer receives. -/
theorem c4_read_range_missing_piece_error (s : PMState) (start len f : Nat)
    (hps : 0 < s.torrent.piece_length)
    (hpos : 0 < s.torrent.total_size)
    (hcount : s.torrent.piece_count
      = (s.torrent.total_size + s.torrent.piece_length - 1) / s.torrent.piece_length)
    (hfile : s.file.length = s.torrent.total_size)
    (hlen : 0 < len)
    (hrange : start + len ≤ s.torrent.total_size)
    (hf_lo : start / s.torrent.piece_length ≤ f)
    (hf_hi : f ≤ (start + len - 1) / s.torrent.piece_length)
    (hnav : is_piece_available s f = false)
    (hbefore : ∀ j, start / s.torrent.piece_length ≤ j → j < f →
      is_piece_available s j = true) :
    read_range s start len
      = some (.error (.notFound ("Piece " ++ toString f ++ " not ready for streaming")),
              request_piece s f .urgent "streaming") ∧
      ({ piece_index := f, priority := .urgent, requester := "streaming" } : PieceRequest)
        ∈ (request_piece s f .urgent "streaming").queue := by
  have hcount' : s.torrent.piece_count
      = (s.torrent.total_size - 1) / s.torrent.piece_length + 1 := by
    rw [hcount]
    exact piece_count_pred hps hpos
  have hne : ¬ (start + len = 0) := by omega
  have hmono : start / s.torrent.piece_length
      ≤ (start + len - 1) / s.torrent.piece_length :=
    Nat.div_le_div_right (by omega)
  have hklen : (start + len - 1) / s.torrent.piece_length + 1
        - start / s.torrent.piece_length
      = ((start + len - 1) / s.torrent.piece_length
        - start / s.torrent.piece_length) + 1 := by
    omega
  have hloop := read_range_loop_not_ready s hps hpos hcount' hfile
    ((start + len - 1) / s.torrent.piece_length - start / s.torrent.piece_length)
    (start / s.torrent.piece_length) start len []
    (f - start / s.torrent.piece_length) hlen
    (Nat.div_mul_le_self start s.torrent.piece_length)
    (by
      have h1 : start < (start / s.torrent.piece_length + 1) * s.torrent.piece_length :=
        (Nat.div_lt_iff_lt_mul hps).mp (Nat.lt_succ_self _)
      omega)
    hrange
    (by omega)
    (by omega)
    (by rw [show start / s.torrent.piece_length
        + (f - start / s.torrent.piece_length) = f from by omega]; exact hnav)
    (fun j h1 h2 => hbefore j h1 (by omega))
  rw [show start / s.torrent.piece_length
    + (f - start / s.torrent.piece_length) = f from by omega] at hloop
  constructor
  · simp only [read_range]
    rw [if_neg hne, hklen, hloop]
  · exact (insert_req_perm PieceRequest.priority _ s.queue).mem_iff.mpr
      (List.mem_cons_self _ _)

/-- The C4 witness state: piece 0 available, piece 1 not yet downloaded. -/
def c4_state : PMState :=
  { torrent := sample_torrent,
    pieces := [{ hash := [], downloaded := true, verified := true },
               { hash := [], downloaded := false, verified := false }],
    queue := [],
    file := [10, 20, 30, 40] }

/-- Witness for C4: the range `[1, 4)` needs pieces 0 and 1; piece 1 is
missing, so the read errors on piece 1 after queueing the urgent request. -/
theorem c4_read_range_missing_piece_error_witness :
    read_range c4_state 1 3
        = some (.error (.notFound ("Piece " ++ toString 1 ++ " not ready for streaming")),
                request_piece c4_state 1 .urgent "streaming") ∧
      ({ piece_index := 1, priority := .urgent, requester := "streaming" } : PieceRequest)
        ∈ (request_piece c4_state 1 .urgent "streaming").queue :=
  c4_read_range_missing_piece_error c4_state 1 3 1 (by decide) (by decide) (by decide)
    (by decide) (by decide) (by decide) (by decide) (by decide) (by decide)
    (by
      intro j h1 h2
      have hj : j = 0 := by omega
      subst hj
      decide)

end StremioShyt
